import Mathlib

/- Shallow embedding of the format-selection, format-normalization and
download progress-tracking logic of a YouTube downloader web backend
(src/app.py).  Python ints are modelled as Int/Nat, Python floats as Rat,
and a dictionary key that is absent (or bound to None) is modelled as an
Option being none.  Keys that the code always reads directly
(format_id, ext) are plain fields.

Rational arithmetic is written with the executable helpers qsub, qmul,
qdiv below (definitionally reducible, unlike the irreducible Rat field
operations); the lemmas qsub_eq, qmul_eq, qdiv_eq identify them with the
standard subtraction, multiplication and division on Rat. -/

set_option maxRecDepth 8192

namespace YTDL

/-- Subtraction on Rat, in executable form (see qsub_eq). -/
def qsub (a b : Rat) : Rat := mkRat (a.num * b.den - b.num * a.den) (a.den * b.den)

/-- Multiplication on Rat, in executable form (see qmul_eq). -/
def qmul (a b : Rat) : Rat := mkRat (a.num * b.num) (a.den * b.den)

/-- Division on Rat, in executable form (see qdiv_eq). -/
def qdiv (a b : Rat) : Rat := Rat.divInt (a.num * (b.den : Int)) ((a.den : Int) * b.num)

/-- Python abs on a float, modelled on Rat. -/
def ratAbs (q : Rat) : Rat := if q < 0 then -q else q

/-- A raw stream-format record as returned by the extraction engine:
one element of info["formats"] in src/app.py. -/
structure Fmt where
  format_id : String
  ext : String
  filesize : Option Int
  filesize_approx : Option Int
  vcodec : Option String
  acodec : Option String
  height : Option Nat
  fps : Option Rat
  tbr : Option Rat
  abr : Option Rat
deriving DecidableEq

/-- Python a or b on an optional integer: a falsey left operand
(None or 0) selects the right operand. -/
def pyOrInt (a : Option Int) (b : Int) : Int :=
  match a with
  | some n => if n = 0 then b else n
  | none => b

/-- Python a or b on an optional rational (float). -/
def pyOrRat (a : Option Rat) (b : Rat) : Rat :=
  match a with
  | some x => if x = 0 then b else x
  | none => b

/-- Python f.get(vcodec-key, none-string), src/app.py:245. -/
def vcodecOf (f : Fmt) : String := f.vcodec.getD "none"

/-- Python f.get(acodec-key, none-string), src/app.py:246. -/
def acodecOf (f : Fmt) : String := f.acodec.getD "none"

/-- Python f.get(height-key, 0), src/app.py:250. -/
def heightOf (f : Fmt) : Nat := f.height.getD 0

/-- Python: filesize = f.get(filesize-key) or f.get(filesize-approx-key, 0),
src/app.py:244. -/
def filesizeOf (f : Fmt) : Int := pyOrInt f.filesize (f.filesize_approx.getD 0)

/-- Python f.get(abr-key, 0), src/app.py:279. -/
def abrOf (f : Fmt) : Rat := f.abr.getD 0

/-- Python f.get(tbr-key, 0), src/app.py:274. -/
def tbrOf (f : Fmt) : Rat := f.tbr.getD 0

/-- Python f.get(fps-key, 30), src/app.py:273. -/
def fpsOf (f : Fmt) : Rat := f.fps.getD 30

/-- The characters before the first dot. -/
def takeUntilDot : List Char → List Char
  | [] => []
  | c :: cs => if c = '.' then [] else c :: takeUntilDot cs

/-- Python codec.split(dot)[0]: the prefix of a codec string before the
first dot. -/
def headDot (s : String) : String := String.mk (takeUntilDot s.data)

/-- Floor of a rational, computed with Euclidean integer division
(the denominator of a Rat is positive). -/
def ratFloor (q : Rat) : Int := Int.ediv q.num (q.den : Int)

/-- Round a rational to the nearest integer, ties to the even integer
(the rounding used by Python round and by float formatting). -/
def roundHalfEven (q : Rat) : Int :=
  let fl := ratFloor q
  if qsub q (fl : Rat) < mkRat 1 2 then fl
  else if mkRat 1 2 < qsub q (fl : Rat) then fl + 1
  else if Int.emod fl 2 = 0 then fl else fl + 1

/-- Python round(x, 1). -/
def pyRound1 (q : Rat) : Rat := qdiv ((roundHalfEven (qmul q 10) : Int) : Rat) 10

/-- Render a rational with one decimal digit, as Python percent-.1f
formatting does for the (non-negative) sizes this program prints. -/
def fmt1 (q : Rat) : String :=
  let n := roundHalfEven (qmul q 10)
  toString (Int.ediv n 10) ++ "." ++ toString (Int.emod n 10)

/-- format_filesize, src/app.py:103-110: None for a missing or zero size,
otherwise the size scaled into the first unit below 1024 (the loop over
the four units B, KB, MB, GB unrolled, with TB as the final fall-through). -/
def format_filesize (bytes_size : Option Int) : Option String :=
  match bytes_size with
  | none => none
  | some n =>
      if n = 0 then none
      else
        let q : Rat := (n : Rat)
        if q < 1024 then some (fmt1 q ++ " B")
        else if qdiv q 1024 < 1024 then some (fmt1 (qdiv q 1024) ++ " KB")
        else if qdiv q (1024 * 1024 : Nat) < 1024 then
          some (fmt1 (qdiv q (1024 * 1024 : Nat)) ++ " MB")
        else if qdiv q (1024 * 1024 * 1024 : Nat) < 1024 then
          some (fmt1 (qdiv q (1024 * 1024 * 1024 : Nat)) ++ " GB")
        else some (fmt1 (qdiv q (1024 * 1024 * 1024 * 1024 : Nat)) ++ " TB")

/-- A Python dict as an insertion-ordered association list. -/
def alGet {κ α : Type} [DecidableEq κ] : List (κ × α) → κ → Option α
  | [], _ => none
  | (k, v) :: rest, k0 => if k = k0 then some v else alGet rest k0

/-- Python dict assignment m[k] = v: update the binding in place when the
key exists, otherwise append the new binding (insertion order). -/
def alSet {κ α : Type} [DecidableEq κ] : List (κ × α) → κ → α → List (κ × α)
  | [], k0, v0 => [(k0, v0)]
  | (k, v) :: rest, k0, v0 =>
      if k = k0 then (k0, v0) :: rest else (k, v) :: alSet rest k0 v0

/-- Python dict .values() in insertion order. -/
def alValues {κ α : Type} (m : List (κ × α)) : List α := m.map (·.2)

/-- Python dict keys in insertion order. -/
def alKeys {κ α : Type} (m : List (κ × α)) : List κ := m.map (·.1)

/-- Stable insertion of x after every already-placed element y with
le y x (le y x reads: y may stay in front of x). -/
def insertBy {α : Type} (le : α → α → Bool) (x : α) : List α → List α
  | [] => [x]
  | y :: ys => if le y x then y :: insertBy le x ys else x :: y :: ys

/-- Python sorted / list.sort for a total preorder given as a boolean
le relation: a stable sort, processing elements in original order
(insertion sort; stability and the ordering determine the output
uniquely, so this agrees with the stable sort of the runtime). -/
def sortBy {α : Type} (le : α → α → Bool) (l : List α) : List α :=
  l.foldl (fun acc x => insertBy le x acc) []

/-- One entry of best_video_by_height, src/app.py:263-275. -/
structure VideoEntry where
  format_id : String
  height : Nat
  resolution : String
  ext : String
  filesize : Int
  filesize_str : Option String
  has_audio : Bool
  vcodec : String
  acodec : String
  fps : Rat
  tbr : Rat
deriving DecidableEq

/-- One entry of best_audio_by_bitrate, src/app.py:289-298. -/
structure AudioEntry where
  format_id : String
  ext : String
  abr : Rat
  abr_rounded : Nat
  abr_str : String
  filesize : Int
  filesize_str : Option String
  acodec : String
deriving DecidableEq

/-- has_audio = acodec != none-string (normalizer video branch,
src/app.py:259). -/
def hasAudioNorm (f : Fmt) : Bool := acodecOf f != "none"

/-- The standard audio bitrate ladder, src/app.py:282. -/
def standardBitrates : List Nat := [64, 96, 128, 160, 192, 256, 320]

/-- Python min(xs, key=distance-to-abr) scanning loop: keep the current
best unless a strictly smaller distance appears (so the first minimizer
in list order wins). -/
def pyMinByDist (abr : Rat) : List Nat → Nat → Nat
  | [], best => best
  | x :: xs, best =>
      pyMinByDist abr xs
        (if ratAbs (qsub (x : Rat) abr) < ratAbs (qsub (best : Rat) abr) then x else best)

/-- rounded_abr = min(standard_bitrates, key=lambda x: abs(x - abr)),
src/app.py:283. -/
def roundAbr (abr : Rat) : Nat :=
  match standardBitrates with
  | [] => 0
  | b :: rest => pyMinByDist abr rest b

/-- The dict stored into best_video_by_height, src/app.py:263-275. -/
def mkVideoEntry (f : Fmt) : VideoEntry :=
  let vcodec := vcodecOf f
  let acodec := acodecOf f
  let filesize := filesizeOf f
  { format_id := f.format_id
    height := heightOf f
    resolution := toString (heightOf f) ++ "p"
    ext := f.ext
    filesize := filesize
    filesize_str := format_filesize (some filesize)
    has_audio := hasAudioNorm f
    vcodec := if vcodec ≠ "" then headDot vcodec else ""
    acodec := if acodec ≠ "none" then headDot acodec else ""
    fps := fpsOf f
    tbr := tbrOf f }

/-- The dict stored into best_audio_by_bitrate, src/app.py:289-298. -/
def mkAudioEntry (f : Fmt) : AudioEntry :=
  let acodec := acodecOf f
  let filesize := filesizeOf f
  let rounded := roundAbr (abrOf f)
  { format_id := f.format_id
    ext := f.ext
    abr := abrOf f
    abr_rounded := rounded
    abr_str := toString rounded ++ " kbps"
    filesize := filesize
    filesize_str := format_filesize (some filesize)
    acodec := if acodec ≠ "" then headDot acodec else "" }

/-- Strict comparison of the Python score tuples
(has_audio, filesize or 0) used at src/app.py:260-262 (bool compares as
False < True, then the integer part). -/
def vscoreLt (a b : Bool × Int) : Bool :=
  (!a.1 && b.1) || (a.1 == b.1 && decide (a.2 < b.2))

/-- The VIDEO FORMATS branch of the normalization loop,
src/app.py:249-275. -/
def videoBranch (m : List (Nat × VideoEntry)) (f : Fmt) : List (Nat × VideoEntry) :=
  let height := heightOf f
  if height ≠ 0 ∧ 144 ≤ height then
    match alGet m height with
    | none => alSet m height (mkVideoEntry f)
    | some existing =>
        if vscoreLt (existing.has_audio, existing.filesize) (hasAudioNorm f, filesizeOf f)
        then alSet m height (mkVideoEntry f)
        else m
  else m

/-- The AUDIO FORMATS branch of the normalization loop,
src/app.py:278-298. -/
def audioBranch (m : List ((String × Nat) × AudioEntry)) (f : Fmt) :
    List ((String × Nat) × AudioEntry) :=
  let abr := abrOf f
  if abr ≠ 0 ∧ 48 ≤ abr then
    let key := (f.ext, roundAbr abr)
    match alGet m key with
    | none => alSet m key (mkAudioEntry f)
    | some existing =>
        if existing.filesize < filesizeOf f then alSet m key (mkAudioEntry f)
        else m
  else m

/-- State threaded through the normalization loop: the two best-per-key
dicts of src/app.py:238-239. -/
structure NormState where
  video : List (Nat × VideoEntry)
  audio : List ((String × Nat) × AudioEntry)
deriving DecidableEq

/-- One iteration of the for f in formats loop, src/app.py:241-298:
an if on the video condition, an elif on the audio condition. -/
def normStep (st : NormState) (f : Fmt) : NormState :=
  if vcodecOf f ≠ "none" then { st with video := videoBranch st.video f }
  else if acodecOf f ≠ "none" ∧ vcodecOf f = "none" then
    { st with audio := audioBranch st.audio f }
  else st

/-- The deduplicated, ranked candidate lists produced by get_video_info. -/
structure CandidateSet where
  video_list : List VideoEntry
  audio_list : List AudioEntry
deriving DecidableEq

/-- The format-normalization portion of get_video_info,
src/app.py:234-311: fold the loop over the raw formats, then stably sort
the surviving dict values, video by height descending and audio by raw
abr descending (Python sorted with reverse=True). -/
def normalize (formats : List Fmt) : CandidateSet :=
  let st := formats.foldl normStep ⟨[], []⟩
  { video_list := sortBy (fun a b => decide (b.height ≤ a.height)) (alValues st.video)
    audio_list := sortBy (fun a b => decide (b.abr ≤ a.abr)) (alValues st.audio) }

/-- One entry of the shared download_progress table (src/app.py:46): a
Python dict whose key set varies by state, modelled with Option fields
(none = key absent). -/
structure JobEntry where
  status : String
  progress : Option Rat
  speed : Option Rat
  eta : Option Rat
  title : Option String
  filename : Option String
  filesize : Option String
  download_url : Option String
  message : Option String
deriving DecidableEq

/-- A JobEntry carrying only a status. -/
def baseEntry (s : String) : JobEntry :=
  { status := s, progress := none, speed := none, eta := none, title := none
    filename := none, filesize := none, download_url := none, message := none }

/-- The shared in-memory job table download_progress, keyed by the
download id. -/
def JobTable := List (String × JobEntry)

instance : DecidableEq JobTable := by
  unfold JobTable
  infer_instance

/-- The mutable per-hook state of ProgressHook, src/app.py:165-168. -/
structure HookState where
  download_id : String
  last_update : Rat
deriving DecidableEq

/-- A progress event dict d passed by the engine to the hook. -/
structure Event where
  status : String
  total_bytes : Option Rat
  total_bytes_estimate : Option Rat
  downloaded_bytes : Option Rat
  speed : Option Rat
  eta : Option Rat
deriving DecidableEq

/-- total = d.get(total-key) or d.get(total-estimate-key, 0),
src/app.py:176. -/
def eventTotal (d : Event) : Rat := pyOrRat d.total_bytes (d.total_bytes_estimate.getD 0)

/-- downloaded = d.get(downloaded-key, 0), src/app.py:177. -/
def eventDownloaded (d : Event) : Rat := d.downloaded_bytes.getD 0

/-- progress = (downloaded / total * 100) if total > 0 else 0,
src/app.py:178. -/
def eventProgress (d : Event) : Rat :=
  if 0 < eventTotal d then qmul (qdiv (eventDownloaded d) (eventTotal d)) 100 else 0

/-- The table entry written on a downloading event, src/app.py:180-185. -/
def downloadingEntry (d : Event) : JobEntry :=
  { baseEntry "downloading" with
    progress := some (pyRound1 (eventProgress d))
    speed := some (d.speed.getD 0)
    eta := some (d.eta.getD 0) }

/-- The table entry written on a finished event, src/app.py:187-190. -/
def processingEntry : JobEntry :=
  { baseEntry "processing" with progress := some 100 }

/-- ProgressHook.__call__, src/app.py:170-191: drop any event arriving
less than 0.3 seconds after the last accepted one, record the call time,
then dispatch on the event status (downloading and finished write the
table; any other status leaves it alone). -/
def hookCall (st : HookState) (tbl : JobTable) (now : Rat) (d : Event) :
    HookState × JobTable :=
  if qsub now st.last_update < mkRat 3 10 then (st, tbl)
  else
    let st0 : HookState := { st with last_update := now }
    if d.status = "downloading" then
      (st0, alSet tbl st.download_id (downloadingEntry d))
    else if d.status = "finished" then
      (st0, alSet tbl st.download_id processingEntry)
    else (st0, tbl)

/-- The conversion postprocessor dict attached to the engine options,
src/app.py:440-444. -/
structure PPSpec where
  key : String
  preferredcodec : String
  preferredquality : String
deriving DecidableEq

/-- Python int() on the (non-negative) bitrates this program truncates:
truncation toward zero. -/
def pyInt (q : Rat) : Int := if 0 ≤ q then ratFloor q else -(ratFloor (-q))

/-- format_lookup built at src/app.py:405 (a dict comprehension, so a
later duplicate format_id wins) queried for one id. -/
def formatLookup (formats : List Fmt) (id : String) : Option Fmt :=
  formats.reverse.find? (fun f => f.format_id = id)

/-- The audio branch of download_video, src/app.py:408-445, reduced to
its decision data: the chosen format string and the optional conversion
postprocessor.  quality names a format id; an unknown id falls back to
the first audio-only raw format, then to the engine bestaudio default.
The postprocessor is attached exactly when conversion to mp3 was
requested and a transcoder is available, with the selected variant
bitrate (192 when unknown) as target quality. -/
def selectAudio (formats : List Fmt) (quality : String) (convert_to : Option String)
    (has_ffmpeg : Bool) : String × Option PPSpec :=
  let selected_format_id :=
    if (formats.map (·.format_id)).contains quality then quality
    else
      match formats.filter (fun f => f.acodec != some "none" && f.vcodec == some "none") with
      | a :: _ => a.format_id
      | [] => "bestaudio"
  let selected_fmt := formatLookup formats selected_format_id
  let pp : Option PPSpec :=
    if convert_to = some "mp3" ∧ has_ffmpeg then
      let target_bitrate := toString (pyInt ((selected_fmt.bind (·.abr)).getD 192))
      some { key := "FFmpegExtractAudio", preferredcodec := "mp3"
             preferredquality := target_bitrate }
    else none
  (selected_format_id, pp)

/-- An element of matching_formats, src/app.py:465-473. -/
structure MatchInfo where
  format_id : String
  has_audio : Bool
  tbr : Rat
  is_mp4 : Bool
  filesize : Int
  ext : String
  acodec : Option String
deriving DecidableEq

/-- The dict built for one exact-height match, src/app.py:460-473.
Note the bare f.get(acodec-key) and f.get(vcodec-key) here (no default),
unlike the normalizer. -/
def mkMatchInfo (f : Fmt) : MatchInfo :=
  { format_id := f.format_id
    has_audio := f.acodec != some "none"
    tbr := tbrOf f
    is_mp4 := f.ext == "mp4"
    filesize := filesizeOf f
    ext := f.ext
    acodec := f.acodec }

/-- The sort key (has_audio, tbr, is_mp4, filesize) of src/app.py:478. -/
def matchKey (a : MatchInfo) : Bool × Rat × Bool × Int :=
  (a.has_audio, a.tbr, a.is_mp4, a.filesize)

/-- Strict lexicographic comparison of the sort keys of src/app.py:478
(bool compares as False < True). -/
def matchKeyLt (a b : MatchInfo) : Bool :=
  (!a.has_audio && b.has_audio) ||
  (a.has_audio == b.has_audio &&
    (decide (a.tbr < b.tbr) ||
      (a.tbr == b.tbr &&
        ((!a.is_mp4 && b.is_mp4) ||
          (a.is_mp4 == b.is_mp4 && decide (a.filesize < b.filesize))))))

/-- Python s.isdigit() and int(s) combined: some value when the string
is non-empty and all digits. -/
def strToNatQ (s : String) : Option Nat :=
  if s.data ≠ [] ∧ s.data.all (·.isDigit) then
    some (s.data.foldl (fun n c => n * 10 + (c.toNat - 48)) 0)
  else none

/-- target_height = int(quality) if quality.isdigit() else 720,
src/app.py:449. -/
def targetHeight (quality : String) : Nat := (strToNatQ quality).getD 720

/-- The video-capable exact-height filter of src/app.py:457-459
(bare f.get(vcodec-key), no default). -/
def matchesHeight (target : Nat) (f : Fmt) : Bool :=
  heightOf f == target && f.vcodec != some "none"

/-- The video branch of download_video, src/app.py:447-510, reduced to
the format string it settles on: rank the exact-height matches by
(has_audio, tbr, is_mp4, filesize) descending (Python stable sort with
reverse=True) and take the top; an audio-less winner is paired with the
highest-bitrate audio-only format; with no exact match fall back to the
engine selection expression best at-or-below the target height. -/
def selectVideoFormatString (formats : List Fmt) (quality : String) : String :=
  let target_height := targetHeight quality
  let matching := (formats.filter (matchesHeight target_height)).map mkMatchInfo
  match matching with
  | [] => "best[height<=" ++ toString target_height ++ "]/best"
  | m :: rest =>
      let sorted := sortBy
        (fun a b => matchKeyLt b a || decide (matchKey a = matchKey b)) (m :: rest)
      let best := sorted.headD m
      if best.has_audio then best.format_id
      else
        let audio_formats := formats.filter
          (fun f => f.acodec != some "none" && f.vcodec == some "none")
        match audio_formats with
        | [] => best.format_id
        | a :: arest =>
            let asorted := sortBy (fun x y => decide (abrOf y ≤ abrOf x)) (a :: arest)
            best.format_id ++ "+" ++ (asorted.headD a).format_id

/-- The outcome of the engine download call as seen by download_video:
a normal return, a DownloadError with its message, or any other
exception. -/
inductive Outcome where
  | ok
  | downloadError (msg : String)
  | unexpectedError
deriving DecidableEq

/-- A produced artifact file: name and on-disk size. -/
structure Artifact where
  name : String
  size : Int
deriving DecidableEq

/-- The HTTP response returned by download_video, reduced to its success
flag, user-facing error text and status code. -/
structure HttpResp where
  success : Bool
  errorMsg : Option String
  code : Nat
deriving DecidableEq

/-- Substring test (Python in operator on strings). -/
def strContains (s pat : String) : Bool :=
  s.data.tails.any (fun t => pat.data.isPrefixOf t)

/-- The completed table entry, src/app.py:539-545. -/
def completedEntry (download_id : String) (file : Artifact) : JobEntry :=
  { baseEntry "completed" with
    progress := some 100
    filename := some file.name
    filesize := format_filesize (some file.size)
    download_url := some ("/api/file/" ++ download_id) }

/-- The tail of download_video from the engine call onward,
src/app.py:522-572: on a normal engine return look up the artifacts
matching the job id and either record completion or answer artifact
missing WITHOUT touching the table; on a DownloadError record an error
entry with the raw message and classify the response by a 403 substring
test; on any other exception record a bare error entry.  Returns the
updated table and the HTTP response. -/
def finalizeDownload (download_id : String) (tbl : JobTable) (outcome : Outcome)
    (files : List Artifact) : JobTable × HttpResp :=
  match outcome with
  | .ok =>
      match files with
      | [] => (tbl, { success := false
                      errorMsg := some "Download failed - file not found", code := 500 })
      | file :: _ =>
          (alSet tbl download_id (completedEntry download_id file),
           { success := true, errorMsg := none, code := 200 })
  | .downloadError msg =>
      let tbl0 := alSet tbl download_id { baseEntry "error" with message := some msg }
      if strContains msg "403" then
        (tbl0, { success := false
                 errorMsg := some "YouTube blocked this request. Try again or select a different quality."
                 code := 400 })
      else
        (tbl0, { success := false
                 errorMsg := some "Download failed. Try a different quality.", code := 400 })
  | .unexpectedError =>
      (alSet tbl download_id (baseEntry "error"),
       { success := false, errorMsg := some "Download failed", code := 500 })

/-! ### Bridges between the executable arithmetic and the Rat field
operations -/

theorem qsub_eq (a b : Rat) : qsub a b = a - b := by
  have ha : ((a.den : Rat)) ≠ 0 := Nat.cast_ne_zero.mpr a.den_pos.ne'
  have hb : ((b.den : Rat)) ≠ 0 := Nat.cast_ne_zero.mpr b.den_pos.ne'
  unfold qsub
  rw [Rat.mkRat_eq_divInt, Rat.divInt_eq_div]
  push_cast
  conv_rhs => rw [← Rat.num_div_den a, ← Rat.num_div_den b]
  rw [div_sub_div _ _ ha hb]
  congr 1
  ring

theorem qmul_eq (a b : Rat) : qmul a b = a * b := by
  unfold qmul
  rw [Rat.mkRat_eq_divInt, Rat.divInt_eq_div]
  push_cast
  conv_rhs => rw [← Rat.num_div_den a, ← Rat.num_div_den b]
  rw [div_mul_div_comm]

theorem qdiv_eq (a b : Rat) : qdiv a b = a / b := by
  unfold qdiv
  rw [Rat.divInt_eq_div]
  push_cast
  rcases eq_or_ne b 0 with hb0 | hb0
  · subst hb0
    simp
  · have ha : ((a.den : Rat)) ≠ 0 := Nat.cast_ne_zero.mpr a.den_pos.ne'
    have hbd : ((b.den : Rat)) ≠ 0 := Nat.cast_ne_zero.mpr b.den_pos.ne'
    have hbn : ((b.num : Rat)) ≠ 0 := Int.cast_ne_zero.mpr (Rat.num_ne_zero.mpr hb0)
    conv_rhs => rw [← Rat.num_div_den a, ← Rat.num_div_den b]
    field_simp

theorem ratAbs_eq (q : Rat) : ratAbs q = |q| := by
  unfold ratAbs
  rcases lt_or_le q 0 with h | h
  · rw [if_pos h, abs_of_neg h]
  · rw [if_neg (not_lt.mpr h), abs_of_nonneg h]

theorem ratAbs_qsub (a b : Rat) : ratAbs (qsub a b) = |a - b| := by
  rw [qsub_eq, ratAbs_eq]

/-! ### Association list lemmas -/

theorem alKeys_cons {κ α : Type} (p : κ × α) (rest : List (κ × α)) :
    alKeys (p :: rest) = p.1 :: alKeys rest := rfl

theorem fst_mem_alKeys {κ α : Type} {m : List (κ × α)} {p : κ × α} (hp : p ∈ m) :
    p.1 ∈ alKeys m := List.mem_map_of_mem _ hp

theorem alSet_nil {κ α : Type} [DecidableEq κ] (k : κ) (v : α) :
    alSet ([] : List (κ × α)) k v = [(k, v)] := rfl

theorem alSet_cons_pos {κ α : Type} [DecidableEq κ] (k : κ) (v1 v : α)
    (rest : List (κ × α)) : alSet ((k, v1) :: rest) k v = (k, v) :: rest := by
  simp [alSet]

theorem alSet_cons_neg {κ α : Type} [DecidableEq κ] {k1 k : κ} (h : k1 ≠ k) (v1 v : α)
    (rest : List (κ × α)) :
    alSet ((k1, v1) :: rest) k v = (k1, v1) :: alSet rest k v := by
  simp [alSet, h]

theorem alGet_cons_pos {κ α : Type} [DecidableEq κ] (k : κ) (v1 : α)
    (rest : List (κ × α)) : alGet ((k, v1) :: rest) k = some v1 := by
  simp [alGet]

theorem alGet_cons_neg {κ α : Type} [DecidableEq κ] {k1 k : κ} (h : k1 ≠ k) (v1 : α)
    (rest : List (κ × α)) : alGet ((k1, v1) :: rest) k = alGet rest k := by
  simp [alGet, h]

theorem alGet_alSet_self {κ α : Type} [DecidableEq κ] (m : List (κ × α)) (k : κ) (v : α) :
    alGet (alSet m k v) k = some v := by
  induction m with
  | nil => rw [alSet_nil, alGet_cons_pos]
  | cons p rest ih =>
      obtain ⟨k1, v1⟩ := p
      by_cases h : k1 = k
      · subst h
        rw [alSet_cons_pos, alGet_cons_pos]
      · rw [alSet_cons_neg h, alGet_cons_neg h]
        exact ih

theorem mem_alSet_weak {κ α : Type} [DecidableEq κ] {m : List (κ × α)} {k : κ} {v : α}
    {p : κ × α} (hp : p ∈ alSet m k v) : p = (k, v) ∨ p ∈ m := by
  induction m with
  | nil =>
      rw [alSet_nil] at hp
      exact Or.inl (List.mem_singleton.mp hp)
  | cons q rest ih =>
      obtain ⟨k1, v1⟩ := q
      by_cases h : k1 = k
      · subst h
        rw [alSet_cons_pos] at hp
        rcases List.mem_cons.mp hp with h1 | h1
        · exact Or.inl h1
        · exact Or.inr (List.mem_cons_of_mem _ h1)
      · rw [alSet_cons_neg h] at hp
        rcases List.mem_cons.mp hp with h1 | h1
        · exact Or.inr (List.mem_cons.mpr (Or.inl h1))
        · rcases ih h1 with h2 | h2
          · exact Or.inl h2
          · exact Or.inr (List.mem_cons_of_mem _ h2)

theorem mem_alSet_ne {κ α : Type} [DecidableEq κ] {m : List (κ × α)} {k : κ} {v : α}
    {p : κ × α} (hne : p.1 ≠ k) : p ∈ alSet m k v ↔ p ∈ m := by
  induction m with
  | nil =>
      rw [alSet_nil]
      constructor
      · intro h
        exact absurd (congrArg Prod.fst (List.mem_singleton.mp h)) hne
      · intro h
        exact absurd h (List.not_mem_nil p)
  | cons q rest ih =>
      obtain ⟨k1, v1⟩ := q
      by_cases h : k1 = k
      · subst h
        rw [alSet_cons_pos, List.mem_cons, List.mem_cons]
        constructor
        · intro hm
          rcases hm with h1 | h1
          · exact absurd (congrArg Prod.fst h1) hne
          · exact Or.inr h1
        · intro hm
          rcases hm with h1 | h1
          · exact absurd (congrArg Prod.fst h1) hne
          · exact Or.inr h1
      · rw [alSet_cons_neg h, List.mem_cons, List.mem_cons, ih]

theorem alKeys_alSet_of_mem {κ α : Type} [DecidableEq κ] {m : List (κ × α)} {k : κ}
    (v : α) (h : k ∈ alKeys m) : alKeys (alSet m k v) = alKeys m := by
  induction m with
  | nil => simp [alKeys] at h
  | cons q rest ih =>
      obtain ⟨k1, v1⟩ := q
      by_cases hk : k1 = k
      · subst hk
        rw [alSet_cons_pos, alKeys_cons, alKeys_cons]
      · have h2 : k ∈ alKeys rest := by
          rw [alKeys_cons, List.mem_cons] at h
          rcases h with h | h
          · exact absurd h.symm hk
          · exact h
        rw [alSet_cons_neg hk, alKeys_cons, alKeys_cons, ih h2]

theorem alKeys_alSet_of_not_mem {κ α : Type} [DecidableEq κ] {m : List (κ × α)} {k : κ}
    (v : α) (h : k ∉ alKeys m) : alKeys (alSet m k v) = alKeys m ++ [k] := by
  induction m with
  | nil => rw [alSet_nil]; rfl
  | cons q rest ih =>
      obtain ⟨k1, v1⟩ := q
      have hk : k1 ≠ k := by
        intro he
        apply h
        rw [alKeys_cons, he]
        exact List.mem_cons_self _ _
      have h2 : k ∉ alKeys rest := by
        intro hc
        apply h
        rw [alKeys_cons]
        exact List.mem_cons_of_mem _ hc
      rw [alSet_cons_neg hk, alKeys_cons, alKeys_cons, ih h2]
      rfl

theorem nodup_alKeys_alSet {κ α : Type} [DecidableEq κ] {m : List (κ × α)} {k : κ}
    (v : α) (h : (alKeys m).Nodup) : (alKeys (alSet m k v)).Nodup := by
  by_cases hm : k ∈ alKeys m
  · rw [alKeys_alSet_of_mem v hm]
    exact h
  · rw [alKeys_alSet_of_not_mem v hm]
    simp [List.nodup_append, h, hm]

theorem alGet_eq_none_iff {κ α : Type} [DecidableEq κ] {m : List (κ × α)} {k : κ} :
    alGet m k = none ↔ k ∉ alKeys m := by
  induction m with
  | nil => simp [alGet, alKeys]
  | cons q rest ih =>
      obtain ⟨k1, v1⟩ := q
      by_cases h : k1 = k
      · subst h
        rw [alGet_cons_pos, alKeys_cons]
        simp
      · rw [alGet_cons_neg h, alKeys_cons, ih]
        simp only [List.mem_cons, not_or]
        constructor
        · intro hr
          exact ⟨fun he => h he.symm, hr⟩
        · intro hr
          exact hr.2

theorem alGet_mem {κ α : Type} [DecidableEq κ] {m : List (κ × α)} {k : κ} {v : α}
    (h : alGet m k = some v) : (k, v) ∈ m := by
  induction m with
  | nil => exact absurd h (by simp [alGet])
  | cons q rest ih =>
      obtain ⟨k1, v1⟩ := q
      by_cases hk : k1 = k
      · subst hk
        rw [alGet_cons_pos, Option.some_inj] at h
        rw [h]
        exact List.mem_cons_self _ _
      · rw [alGet_cons_neg hk] at h
        exact List.mem_cons_of_mem _ (ih h)

theorem eq_of_mem_nodup_alKeys {κ α : Type} [DecidableEq κ] {m : List (κ × α)}
    (hnd : (alKeys m).Nodup) {p q : κ × α} (hp : p ∈ m) (hq : q ∈ m)
    (hk : p.1 = q.1) : p = q := by
  induction m with
  | nil => exact absurd hp (List.not_mem_nil p)
  | cons r rest ih =>
      rw [alKeys_cons, List.nodup_cons] at hnd
      rcases List.mem_cons.mp hp with h1 | h1 <;> rcases List.mem_cons.mp hq with h2 | h2
      · rw [h1, h2]
      · exfalso
        apply hnd.1
        rw [← h1, hk]
        exact fst_mem_alKeys h2
      · exfalso
        apply hnd.1
        rw [← h2, ← hk]
        exact fst_mem_alKeys h1
      · exact ih hnd.2 h1 h2

/-! ### Stable sort lemmas -/

open List in
theorem insertBy_perm {α : Type} (le : α → α → Bool) (x : α) (l : List α) :
    insertBy le x l ~ x :: l := by
  induction l with
  | nil => exact List.Perm.refl _
  | cons y ys ih =>
      unfold insertBy
      by_cases h : le y x = true
      · rw [if_pos h]
        exact (ih.cons y).trans (List.Perm.swap x y ys)
      · rw [if_neg h]

open List in
theorem sortBy_perm {α : Type} (le : α → α → Bool) (l : List α) : sortBy le l ~ l := by
  suffices h : ∀ (l acc : List α),
      (l.foldl (fun acc x => insertBy le x acc) acc) ~ acc ++ l by
    simpa using h l []
  intro l
  induction l with
  | nil => intro acc; simp
  | cons x xs ih =>
      intro acc
      calc (x :: xs).foldl (fun acc x => insertBy le x acc) acc
          = xs.foldl (fun acc x => insertBy le x acc) (insertBy le x acc) := rfl
        _ ~ insertBy le x acc ++ xs := ih _
        _ ~ (x :: acc) ++ xs := (insertBy_perm le x acc).append_right xs
        _ ~ acc ++ x :: xs := List.perm_middle.symm

theorem mem_sortBy {α : Type} {le : α → α → Bool} {l : List α} {a : α} :
    a ∈ sortBy le l ↔ a ∈ l := (sortBy_perm le l).mem_iff

/-! ### The normalizer score tuple order -/

/-- The score (has_audio, filesize or 0) of a raw format,
src/app.py:260. -/
def vscore (f : Fmt) : Bool × Int := (hasAudioNorm f, filesizeOf f)

/-- The score tuple read back from a stored entry, src/app.py:262. -/
def escore (e : VideoEntry) : Bool × Int := (e.has_audio, e.filesize)

/-- Reflexive closure of the strict tuple comparison. -/
def vscoreLe (a b : Bool × Int) : Prop := vscoreLt a b = true ∨ a = b

theorem escore_mkVideoEntry (f : Fmt) : escore (mkVideoEntry f) = vscore f := rfl

theorem vscoreLe_refl (a : Bool × Int) : vscoreLe a a := Or.inr rfl

theorem vscoreLe_total_of_not_lt {a b : Bool × Int} (h : ¬ vscoreLt a b = true) :
    vscoreLe b a := by
  rcases a with ⟨a1, a2⟩
  rcases b with ⟨b1, b2⟩
  cases a1 <;> cases b1 <;>
    simp [vscoreLt, vscoreLe, Prod.ext_iff] at * <;> omega

theorem vscoreLe_trans_lt {a b c : Bool × Int} (hab : vscoreLe a b)
    (hbc : vscoreLt b c = true) : vscoreLe a c := by
  rcases hab with hab | hab
  · left
    rcases a with ⟨a1, a2⟩
    rcases b with ⟨b1, b2⟩
    rcases c with ⟨c1, c2⟩
    revert hab hbc
    cases a1 <;> cases b1 <;> cases c1 <;> simp [vscoreLt] <;> omega
  · rw [hab]
    exact Or.inl hbc

/-! ### The bitrate rounding minimizer -/

theorem pyMinByDist_mem (abr : Rat) :
    ∀ (l : List Nat) (best : Nat),
      pyMinByDist abr l best = best ∨ pyMinByDist abr l best ∈ l := by
  intro l
  induction l with
  | nil => intro best; exact Or.inl rfl
  | cons x xs ih =>
      intro best
      unfold pyMinByDist
      by_cases h : ratAbs (qsub (x : Rat) abr) < ratAbs (qsub (best : Rat) abr)
      · rw [if_pos h]
        rcases ih x with h1 | h1
        · exact Or.inr (by rw [h1]; exact List.mem_cons_self _ _)
        · exact Or.inr (List.mem_cons_of_mem _ h1)
      · rw [if_neg h]
        rcases ih best with h1 | h1
        · exact Or.inl h1
        · exact Or.inr (List.mem_cons_of_mem _ h1)

theorem pyMinByDist_min (abr : Rat) :
    ∀ (l : List Nat) (best y : Nat), y = best ∨ y ∈ l →
      ratAbs (qsub ((pyMinByDist abr l best : Nat) : Rat) abr) ≤
        ratAbs (qsub (y : Rat) abr) := by
  intro l
  induction l with
  | nil =>
      intro best y hy
      rcases hy with h | h
      · subst h
        exact le_refl _
      · exact absurd h (List.not_mem_nil y)
  | cons x xs ih =>
      intro best y hy
      unfold pyMinByDist
      by_cases h : ratAbs (qsub (x : Rat) abr) < ratAbs (qsub (best : Rat) abr)
      · rw [if_pos h]
        rcases hy with h1 | h1
        · subst h1
          exact le_trans (ih x x (Or.inl rfl)) (le_of_lt h)
        · rcases List.mem_cons.mp h1 with h2 | h2
          · subst h2
            exact ih y y (Or.inl rfl)
          · exact ih x y (Or.inr h2)
      · rw [if_neg h]
        rcases hy with h1 | h1
        · subst h1
          exact ih y y (Or.inl rfl)
        · rcases List.mem_cons.mp h1 with h2 | h2
          · subst h2
            exact le_trans (ih best best (Or.inl rfl)) (not_lt.mp h)
          · exact ih best y (Or.inr h2)

theorem pyMinByDist_tie (abr : Rat) :
    ∀ (l : List Nat) (best : Nat), List.Pairwise (· ≤ ·) (best :: l) →
      ∀ y : Nat, y = best ∨ y ∈ l →
        ratAbs (qsub (y : Rat) abr) =
          ratAbs (qsub ((pyMinByDist abr l best : Nat) : Rat) abr) →
        pyMinByDist abr l best ≤ y := by
  intro l
  induction l with
  | nil =>
      intro best hp y hy hd
      rcases hy with h | h
      · subst h
        exact le_refl _
      · exact absurd h (List.not_mem_nil y)
  | cons x xs ih =>
      intro best hp y hy hd
      rw [List.pairwise_cons] at hp
      by_cases h : ratAbs (qsub (x : Rat) abr) < ratAbs (qsub (best : Rat) abr)
      · have hres : pyMinByDist abr (x :: xs) best = pyMinByDist abr xs x := by
          simp only [pyMinByDist]
          rw [if_pos h]
        rw [hres] at hd ⊢
        rcases hy with h1 | h1
        · subst h1
          exfalso
          have hle := pyMinByDist_min abr xs x x (Or.inl rfl)
          rw [← hd] at hle
          exact absurd h (not_lt.mpr hle)
        · rcases List.mem_cons.mp h1 with h2 | h2
          · subst h2
            exact ih y hp.2 y (Or.inl rfl) hd
          · exact ih x hp.2 y (Or.inr h2) hd
      · have hres : pyMinByDist abr (x :: xs) best = pyMinByDist abr xs best := by
          simp only [pyMinByDist]
          rw [if_neg h]
        rw [hres] at hd ⊢
        have hpb : List.Pairwise (· ≤ ·) (best :: xs) := by
          rw [List.pairwise_cons]
          exact ⟨fun a ha => hp.1 a (List.mem_cons_of_mem _ ha),
            (List.pairwise_cons.mp hp.2).2⟩
        rcases hy with h1 | h1
        · subst h1
          exact ih y hpb y (Or.inl rfl) hd
        · rcases List.mem_cons.mp h1 with h2 | h2
          · subst h2
            have hmin := pyMinByDist_min abr xs best best (Or.inl rfl)
            have hxb := not_lt.mp h
            rw [hd] at hxb
            have heq := le_antisymm hxb hmin
            have hrb := ih best hpb best (Or.inl rfl) heq
            exact le_trans hrb (hp.1 y (List.mem_cons_self _ _))
          · exact ih best hpb y (Or.inr h2) hd

theorem roundAbr_def (abr : Rat) :
    roundAbr abr = pyMinByDist abr [96, 128, 160, 192, 256, 320] 64 := rfl

theorem mem_standardBitrates_cases {x : Nat} (hx : x ∈ standardBitrates) :
    x = 64 ∨ x ∈ ([96, 128, 160, 192, 256, 320] : List Nat) := by
  rcases List.mem_cons.mp hx with h | h
  · exact Or.inl h
  · exact Or.inr h

theorem roundAbr_mem (abr : Rat) : roundAbr abr ∈ standardBitrates := by
  rw [roundAbr_def]
  rcases pyMinByDist_mem abr [96, 128, 160, 192, 256, 320] 64 with h | h
  · rw [h]
    exact List.mem_cons_self _ _
  · exact List.mem_cons_of_mem _ h

theorem roundAbr_min (abr : Rat) (x : Nat) (hx : x ∈ standardBitrates) :
    ratAbs (qsub ((roundAbr abr : Nat) : Rat) abr) ≤ ratAbs (qsub (x : Rat) abr) := by
  rw [roundAbr_def]
  exact pyMinByDist_min abr _ 64 x (mem_standardBitrates_cases hx)

theorem roundAbr_tie (abr : Rat) (x : Nat) (hx : x ∈ standardBitrates)
    (hd : ratAbs (qsub (x : Rat) abr) = ratAbs (qsub ((roundAbr abr : Nat) : Rat) abr)) :
    roundAbr abr ≤ x := by
  rw [roundAbr_def] at hd ⊢
  exact pyMinByDist_tie abr _ 64 (by decide) x (mem_standardBitrates_cases hx) hd

/-! ### The normalization loop invariant -/

theorem mem_alSet_cases {κ α : Type} [DecidableEq κ] {m : List (κ × α)}
    (hnd : (alKeys m).Nodup) {k : κ} {v : α} {p : κ × α} (hp : p ∈ alSet m k v) :
    p = (k, v) ∨ (p ∈ m ∧ p.1 ≠ k) := by
  by_cases h1 : p.1 = k
  · left
    have hpnew : (k, v) ∈ alSet m k v := alGet_mem (alGet_alSet_self m k v)
    exact eq_of_mem_nodup_alKeys (nodup_alKeys_alSet v hnd) hp hpnew h1
  · right
    exact ⟨(mem_alSet_ne h1).mp hp, h1⟩

/-- A raw format that enters the video grouping, src/app.py:249-251. -/
def isVideoCandidate (f : Fmt) : Prop :=
  vcodecOf f ≠ "none" ∧ heightOf f ≠ 0 ∧ 144 ≤ heightOf f

instance (f : Fmt) : Decidable (isVideoCandidate f) := by
  unfold isVideoCandidate
  infer_instance

/-- A raw format that enters the audio grouping, src/app.py:278-280. -/
def isAudioCandidate (f : Fmt) : Prop :=
  vcodecOf f = "none" ∧ acodecOf f ≠ "none" ∧ abrOf f ≠ 0 ∧ 48 ≤ abrOf f

instance (f : Fmt) : Decidable (isAudioCandidate f) := by
  unfold isAudioCandidate
  infer_instance

/-- What one pass of the loop maintains about best_video_by_height:
keys are distinct, every entry is keyed by its own height and stems from
a processed video candidate of that height, every entry score-dominates
every processed candidate at its height, and every processed candidate
height owns an entry. -/
def VideoInv (processed : List Fmt) (m : List (Nat × VideoEntry)) : Prop :=
  (alKeys m).Nodup ∧
  (∀ p ∈ m, p.2.height = p.1 ∧
    ∃ f ∈ processed, isVideoCandidate f ∧ heightOf f = p.1 ∧ p.2 = mkVideoEntry f) ∧
  (∀ p ∈ m, ∀ f ∈ processed, isVideoCandidate f → heightOf f = p.1 →
    vscoreLe (vscore f) (escore p.2)) ∧
  (∀ f ∈ processed, isVideoCandidate f → heightOf f ∈ alKeys m)

/-- What one pass of the loop maintains about best_audio_by_bitrate:
keys are distinct and every entry is keyed by its own bucket and stems
from a processed audio candidate. -/
def AudioInv (processed : List Fmt) (m : List ((String × Nat) × AudioEntry)) : Prop :=
  (alKeys m).Nodup ∧
  (∀ p ∈ m, (p.2.ext, p.2.abr_rounded) = p.1 ∧
    ∃ f ∈ processed, isAudioCandidate f ∧ p.2 = mkAudioEntry f)

theorem videoInv_extend_noncand {pre : List Fmt} {m : List (Nat × VideoEntry)} {f : Fmt}
    (hnc : ¬ isVideoCandidate f) (h : VideoInv pre m) : VideoInv (pre ++ [f]) m := by
  obtain ⟨hnd, hprov, hmax, hcomp⟩ := h
  refine ⟨hnd, ?_, ?_, ?_⟩
  · intro p hp
    obtain ⟨hh1, g, hg, hrest⟩ := hprov p hp
    exact ⟨hh1, g, List.mem_append_left _ hg, hrest⟩
  · intro p hp g hg hgc hgh
    rcases List.mem_append.mp hg with h1 | h1
    · exact hmax p hp g h1 hgc hgh
    · exfalso
      apply hnc
      rw [← List.mem_singleton.mp h1]
      exact hgc
  · intro g hg hgc
    rcases List.mem_append.mp hg with h1 | h1
    · exact hcomp g h1 hgc
    · exfalso
      apply hnc
      rw [← List.mem_singleton.mp h1]
      exact hgc

theorem audioInv_mono {pre : List Fmt} {m : List ((String × Nat) × AudioEntry)} (f : Fmt)
    (h : AudioInv pre m) : AudioInv (pre ++ [f]) m := by
  obtain ⟨hnd, hprov⟩ := h
  refine ⟨hnd, ?_⟩
  intro p hp
  obtain ⟨hh1, g, hg, hrest⟩ := hprov p hp
  exact ⟨hh1, g, List.mem_append_left _ hg, hrest⟩

theorem videoBranch_step {pre : List Fmt} {m : List (Nat × VideoEntry)} {f : Fmt}
    (hvc : vcodecOf f ≠ "none") (h : VideoInv pre m) :
    VideoInv (pre ++ [f]) (videoBranch m f) := by
  obtain ⟨hnd, hprov, hmax, hcomp⟩ := h
  unfold videoBranch
  by_cases hh : heightOf f ≠ 0 ∧ 144 ≤ heightOf f
  case neg =>
    rw [if_neg hh]
    exact videoInv_extend_noncand (fun hc => hh ⟨hc.2.1, hc.2.2⟩) ⟨hnd, hprov, hmax, hcomp⟩
  case pos =>
    rw [if_pos hh]
    have hcand : isVideoCandidate f := ⟨hvc, hh.1, hh.2⟩
    have hfmem : f ∈ pre ++ [f] := List.mem_append_right _ (List.mem_singleton.mpr rfl)
    cases halg : alGet m (heightOf f) with
    | none =>
        have hknotin : heightOf f ∉ alKeys m := alGet_eq_none_iff.mp halg
        refine ⟨nodup_alKeys_alSet _ hnd, ?_, ?_, ?_⟩
        · intro p hp
          rcases mem_alSet_cases hnd hp with h1 | h1
          · rw [h1]
            exact ⟨rfl, f, hfmem, hcand, rfl, rfl⟩
          · obtain ⟨hh1, g, hg, hrest⟩ := hprov p h1.1
            exact ⟨hh1, g, List.mem_append_left _ hg, hrest⟩
        · intro p hp g hg hgc hgh
          rcases mem_alSet_cases hnd hp with h1 | h1
          · rw [h1] at hgh ⊢
            rcases List.mem_append.mp hg with h2 | h2
            · exfalso
              apply hknotin
              have := hcomp g h2 hgc
              rw [hgh] at this
              exact this
            · rw [List.mem_singleton.mp h2]
              rw [escore_mkVideoEntry]
              exact vscoreLe_refl _
          · rcases List.mem_append.mp hg with h2 | h2
            · exact hmax p h1.1 g h2 hgc hgh
            · exfalso
              apply h1.2
              rw [← hgh, List.mem_singleton.mp h2]
        · intro g hg hgc
          rw [alKeys_alSet_of_not_mem _ hknotin]
          rcases List.mem_append.mp hg with h1 | h1
          · exact List.mem_append_left _ (hcomp g h1 hgc)
          · rw [List.mem_singleton.mp h1]
            exact List.mem_append_right _ (List.mem_singleton.mpr rfl)
    | some existing =>
        have hmem : (heightOf f, existing) ∈ m := alGet_mem halg
        show VideoInv (pre ++ [f])
          (if vscoreLt (existing.has_audio, existing.filesize)
              (hasAudioNorm f, filesizeOf f) = true
           then alSet m (heightOf f) (mkVideoEntry f) else m)
        by_cases hlt :
            vscoreLt (existing.has_audio, existing.filesize)
              (hasAudioNorm f, filesizeOf f) = true
        case pos =>
          rw [if_pos hlt]
          refine ⟨nodup_alKeys_alSet _ hnd, ?_, ?_, ?_⟩
          · intro p hp
            rcases mem_alSet_cases hnd hp with h1 | h1
            · rw [h1]
              exact ⟨rfl, f, hfmem, hcand, rfl, rfl⟩
            · obtain ⟨hh1, g, hg, hrest⟩ := hprov p h1.1
              exact ⟨hh1, g, List.mem_append_left _ hg, hrest⟩
          · intro p hp g hg hgc hgh
            rcases mem_alSet_cases hnd hp with h1 | h1
            · rw [h1] at hgh ⊢
              rcases List.mem_append.mp hg with h2 | h2
              · have hle := hmax (heightOf f, existing) hmem g h2 hgc hgh
                rw [escore_mkVideoEntry]
                exact vscoreLe_trans_lt hle hlt
              · rw [List.mem_singleton.mp h2]
                rw [escore_mkVideoEntry]
                exact vscoreLe_refl _
            · rcases List.mem_append.mp hg with h2 | h2
              · exact hmax p h1.1 g h2 hgc hgh
              · exfalso
                apply h1.2
                rw [← hgh, List.mem_singleton.mp h2]
          · intro g hg hgc
            have hkin : heightOf f ∈ alKeys m := fst_mem_alKeys hmem
            rw [alKeys_alSet_of_mem _ hkin]
            rcases List.mem_append.mp hg with h1 | h1
            · exact hcomp g h1 hgc
            · rw [List.mem_singleton.mp h1]
              exact hkin
        case neg =>
          rw [if_neg hlt]
          refine ⟨hnd, ?_, ?_, ?_⟩
          · intro p hp
            obtain ⟨hh1, g, hg, hrest⟩ := hprov p hp
            exact ⟨hh1, g, List.mem_append_left _ hg, hrest⟩
          · intro p hp g hg hgc hgh
            rcases List.mem_append.mp hg with h2 | h2
            · exact hmax p hp g h2 hgc hgh
            · have hgf := List.mem_singleton.mp h2
              rw [hgf] at hgc hgh
              by_cases hp1 : p.1 = heightOf f
              · have hpe : p = (heightOf f, existing) :=
                  eq_of_mem_nodup_alKeys hnd hp hmem hp1
                rw [hgf, hpe]
                exact vscoreLe_total_of_not_lt hlt
              · exfalso
                apply hp1
                rw [← hgh]
          · intro g hg hgc
            rcases List.mem_append.mp hg with h1 | h1
            · exact hcomp g h1 hgc
            · rw [List.mem_singleton.mp h1]
              exact fst_mem_alKeys hmem

theorem audioBranch_step {pre : List Fmt} {m : List ((String × Nat) × AudioEntry)} {f : Fmt}
    (hvc : vcodecOf f = "none") (hac : acodecOf f ≠ "none") (h : AudioInv pre m) :
    AudioInv (pre ++ [f]) (audioBranch m f) := by
  obtain ⟨hnd, hprov⟩ := h
  unfold audioBranch
  by_cases habr : abrOf f ≠ 0 ∧ 48 ≤ abrOf f
  case neg =>
    rw [if_neg habr]
    exact audioInv_mono f ⟨hnd, hprov⟩
  case pos =>
    rw [if_pos habr]
    show AudioInv (pre ++ [f])
      (match alGet m (f.ext, roundAbr (abrOf f)) with
       | none => alSet m (f.ext, roundAbr (abrOf f)) (mkAudioEntry f)
       | some existing =>
           if existing.filesize < filesizeOf f
           then alSet m (f.ext, roundAbr (abrOf f)) (mkAudioEntry f) else m)
    have hcand : isAudioCandidate f := ⟨hvc, hac, habr.1, habr.2⟩
    have hfmem : f ∈ pre ++ [f] := List.mem_append_right _ (List.mem_singleton.mpr rfl)
    have hkeep : ∀ p ∈ m, (p.2.ext, p.2.abr_rounded) = p.1 ∧
        ∃ g ∈ pre ++ [f], isAudioCandidate g ∧ p.2 = mkAudioEntry g := by
      intro p hp
      obtain ⟨hh1, g, hg, hrest⟩ := hprov p hp
      exact ⟨hh1, g, List.mem_append_left _ hg, hrest⟩
    have hnew : ∀ p : (String × Nat) × AudioEntry,
        p = ((f.ext, roundAbr (abrOf f)), mkAudioEntry f) →
        (p.2.ext, p.2.abr_rounded) = p.1 ∧
          ∃ g ∈ pre ++ [f], isAudioCandidate g ∧ p.2 = mkAudioEntry g := by
      intro p hp
      rw [hp]
      exact ⟨rfl, f, hfmem, hcand, rfl⟩
    cases halg : alGet m (f.ext, roundAbr (abrOf f)) with
    | none =>
        refine ⟨nodup_alKeys_alSet _ hnd, ?_⟩
        intro p hp
        rcases mem_alSet_cases hnd hp with h1 | h1
        · exact hnew p h1
        · exact hkeep p h1.1
    | some existing =>
        show AudioInv (pre ++ [f])
          (if existing.filesize < filesizeOf f
           then alSet m (f.ext, roundAbr (abrOf f)) (mkAudioEntry f) else m)
        by_cases hflt : existing.filesize < filesizeOf f
        case pos =>
          rw [if_pos hflt]
          refine ⟨nodup_alKeys_alSet _ hnd, ?_⟩
          intro p hp
          rcases mem_alSet_cases hnd hp with h1 | h1
          · exact hnew p h1
          · exact hkeep p h1.1
        case neg =>
          rw [if_neg hflt]
          exact ⟨hnd, hkeep⟩

/-- The combined loop invariant. -/
def Inv (processed : List Fmt) (st : NormState) : Prop :=
  VideoInv processed st.video ∧ AudioInv processed st.audio

theorem normStep_inv {pre : List Fmt} {st : NormState} {f : Fmt} (h : Inv pre st) :
    Inv (pre ++ [f]) (normStep st f) := by
  obtain ⟨hv, ha⟩ := h
  unfold normStep
  by_cases h1 : vcodecOf f ≠ "none"
  · rw [if_pos h1]
    exact ⟨videoBranch_step h1 hv, audioInv_mono f ha⟩
  · rw [if_neg h1]
    push_neg at h1
    by_cases h2 : acodecOf f ≠ "none" ∧ vcodecOf f = "none"
    · rw [if_pos h2]
      exact ⟨videoInv_extend_noncand (fun hc => hc.1 h1) hv, audioBranch_step h2.2 h2.1 ha⟩
    · rw [if_neg h2]
      exact ⟨videoInv_extend_noncand (fun hc => hc.1 h1) hv, audioInv_mono f ha⟩

theorem foldl_normStep_inv :
    ∀ (l pre : List Fmt) (st : NormState), Inv pre st → Inv (pre ++ l) (l.foldl normStep st) := by
  intro l
  induction l with
  | nil =>
      intro pre st h
      simpa using h
  | cons x xs ih =>
      intro pre st h
      have h3 := ih (pre ++ [x]) (normStep st x) (normStep_inv h)
      rw [List.append_assoc] at h3
      simpa using h3

theorem normalize_inv (formats : List Fmt) :
    Inv formats (formats.foldl normStep ⟨[], []⟩) := by
  have h0 : Inv [] ⟨[], []⟩ := by
    refine ⟨⟨List.nodup_nil, ?_, ?_, ?_⟩, List.nodup_nil, ?_⟩
    · intro p hp
      exact absurd hp (List.not_mem_nil p)
    · intro p hp
      exact absurd hp (List.not_mem_nil p)
    · intro g hg
      exact absurd hg (List.not_mem_nil g)
    · intro p hp
      exact absurd hp (List.not_mem_nil p)
  simpa using foldl_normStep_inv formats [] ⟨[], []⟩ h0

/-! ### Facts about normalize -/

theorem normalize_video_list (formats : List Fmt) :
    (normalize formats).video_list =
      sortBy (fun a b => decide (b.height ≤ a.height))
        (alValues (formats.foldl normStep ⟨[], []⟩).video) := rfl

theorem normalize_audio_list (formats : List Fmt) :
    (normalize formats).audio_list =
      sortBy (fun a b => decide (b.abr ≤ a.abr))
        (alValues (formats.foldl normStep ⟨[], []⟩).audio) := rfl

/-- C8: the grouping keys of the two normalized lists are pairwise
distinct — at most one video entry per height and at most one audio
entry per (container, rounded-bitrate) bucket. -/
theorem c8_normalize_keys_distinct (formats : List Fmt) :
    ((normalize formats).video_list.map (fun e => e.height)).Nodup ∧
    ((normalize formats).audio_list.map (fun e => (e.ext, e.abr_rounded))).Nodup := by
  obtain ⟨⟨hvnd, hvprov, hvmax, hvcomp⟩, hand, haprov⟩ := normalize_inv formats
  constructor
  · rw [normalize_video_list]
    have hperm := (sortBy_perm (fun a b : VideoEntry => decide (b.height ≤ a.height))
      (alValues (formats.foldl normStep ⟨[], []⟩).video)).map (fun e => e.height)
    apply hperm.nodup_iff.mpr
    have heq : (alValues (formats.foldl normStep ⟨[], []⟩).video).map (fun e => e.height) =
        alKeys (formats.foldl normStep ⟨[], []⟩).video := by
      unfold alValues alKeys
      rw [List.map_map]
      exact List.map_congr_left (fun p hp => (hvprov p hp).1)
    rw [heq]
    exact hvnd
  · rw [normalize_audio_list]
    have hperm := (sortBy_perm (fun a b : AudioEntry => decide (b.abr ≤ a.abr))
      (alValues (formats.foldl normStep ⟨[], []⟩).audio)).map (fun e => (e.ext, e.abr_rounded))
    apply hperm.nodup_iff.mpr
    have heq : (alValues (formats.foldl normStep ⟨[], []⟩).audio).map
        (fun e => (e.ext, e.abr_rounded)) =
        alKeys (formats.foldl normStep ⟨[], []⟩).audio := by
      unfold alValues alKeys
      rw [List.map_map]
      exact List.map_congr_left (fun p hp => (haprov p hp).1)
    rw [heq]
    exact hand

/-- C1 (amended): every entry of the normalized video list stems from a
video candidate of its height, and score-dominates every video candidate
of its height under the score (audio-capable, file_size_or_0) — the
total bitrate is not part of the ranking. -/
theorem c1_video_rank_amended (formats : List Fmt) :
    ∀ e ∈ (normalize formats).video_list,
      (∃ f ∈ formats, isVideoCandidate f ∧ heightOf f = e.height ∧ e = mkVideoEntry f) ∧
      (∀ f ∈ formats, isVideoCandidate f → heightOf f = e.height →
        vscoreLe (vscore f) (escore e)) := by
  intro e he
  obtain ⟨⟨hvnd, hvprov, hvmax, hvcomp⟩, _⟩ := normalize_inv formats
  rw [normalize_video_list, mem_sortBy] at he
  obtain ⟨p, hp, hpe⟩ := List.mem_map.mp he
  obtain ⟨hh, g, hg, hgc, hgh, hge⟩ := hvprov p hp
  constructor
  · refine ⟨g, hg, hgc, ?_, ?_⟩
    · rw [← hpe, hh]
      exact hgh
    · rw [← hpe]
      exact hge
  · intro f hf hfc hfh
    have hfp : heightOf f = p.1 := by
      rw [hfh, ← hpe, hh]
    have := hvmax p hp f hf hfc hfp
    rw [← hpe]
    exact this

/-- The concrete variants refuting the bitrate component of the claimed
video ranking: both 720p and audio-capable, the first with the larger
file size, the second with the (much) larger total bitrate. -/
def cxA : Fmt :=
  { format_id := "vA", ext := "mp4", filesize := some 100, filesize_approx := none,
    vcodec := some "avc1.64001F", acodec := some "mp4a.40.2", height := some 720,
    fps := some 30, tbr := some 10, abr := none }

def cxB : Fmt := { cxA with format_id := "vB", filesize := some 50, tbr := some 4000 }

/-- C1 (counterexample): at height 720 the survivor is the variant with
the larger file size and total bitrate 10, although an equally
audio-capable video candidate of the same height has total bitrate 4000
— so the survivor does not maximize the claimed tuple
(audio-capable, total_bitrate, file_size) lexicographically. -/
theorem c1_counterexample :
    (normalize [cxA, cxB]).video_list = [mkVideoEntry cxA] ∧
    isVideoCandidate cxB ∧ heightOf cxB = (mkVideoEntry cxA).height ∧
    hasAudioNorm cxB = (mkVideoEntry cxA).has_audio ∧
    (mkVideoEntry cxA).tbr < tbrOf cxB := by
  refine ⟨by decide, by decide, by decide, by decide, by decide⟩

theorem c1_witness : vscoreLe (vscore cxA) (escore (mkVideoEntry cxA)) :=
  (c1_video_rank_amended [cxA] (mkVideoEntry cxA) (by decide)).2 cxA (by decide)
    (by decide) (by decide)

/-- C10: every entry of the normalized audio list stems from a raw
variant whose video codec is the none sentinel; muxed variants never
reach the audio candidate list. -/
theorem c10_audio_only_sources (formats : List Fmt) :
    ∀ e ∈ (normalize formats).audio_list,
      ∃ f ∈ formats, vcodecOf f = "none" ∧ acodecOf f ≠ "none" ∧ e = mkAudioEntry f := by
  intro e he
  obtain ⟨_, hand, haprov⟩ := normalize_inv formats
  rw [normalize_audio_list, mem_sortBy] at he
  obtain ⟨p, hp, hpe⟩ := List.mem_map.mp he
  obtain ⟨hh, g, hg, hgc, hge⟩ := haprov p hp
  refine ⟨g, hg, hgc.1, hgc.2.1, ?_⟩
  rw [← hpe]
  exact hge

/-- The two same-container audio variants of the rounding scenario. -/
def am191 : Fmt :=
  { format_id := "a191", ext := "m4a", filesize := some 1000, filesize_approx := none,
    vcodec := some "none", acodec := some "mp4a.40.2", height := none,
    fps := none, tbr := none, abr := some 191 }

def am129 : Fmt := { am191 with format_id := "a129", filesize := some 800, abr := some 129 }

theorem c10_witness :
    ∃ f ∈ [am191], vcodecOf f = "none" ∧ acodecOf f ≠ "none" ∧
      mkAudioEntry am191 = mkAudioEntry f :=
  c10_audio_only_sources [am191] (mkAudioEntry am191) (by decide)

/-- C9: the bitrate rounding picks a ladder member of minimal distance,
with an exact tie resolved to the lower ladder value; in particular 191
rounds to 192 and 129 to 128, and the two m4a variants with those
bitrates land in distinct buckets and are both retained. -/
theorem c9_bitrate_rounding :
    (∀ abr : Rat, roundAbr abr ∈ standardBitrates ∧
      (∀ x ∈ standardBitrates, |((roundAbr abr : Nat) : Rat) - abr| ≤ |(x : Rat) - abr|) ∧
      (∀ x ∈ standardBitrates, |(x : Rat) - abr| = |((roundAbr abr : Nat) : Rat) - abr| →
        roundAbr abr ≤ x)) ∧
    roundAbr 191 = 192 ∧ roundAbr 129 = 128 ∧
    (normalize [am191, am129]).audio_list.map (fun e => (e.format_id, e.ext, e.abr_rounded)) =
      [("a191", "m4a", 192), ("a129", "m4a", 128)] := by
  refine ⟨?_, by decide, by decide, by decide⟩
  intro abr
  refine ⟨roundAbr_mem abr, ?_, ?_⟩
  · intro x hx
    have h := roundAbr_min abr x hx
    rwa [ratAbs_qsub, ratAbs_qsub] at h
  · intro x hx hd
    apply roundAbr_tie abr x hx
    rw [ratAbs_qsub, ratAbs_qsub]
    exact hd

theorem c9_witness : roundAbr 112 ≤ 128 :=
  (c9_bitrate_rounding.1 112).2.2 128 (by decide)
    (by rw [← ratAbs_qsub, ← ratAbs_qsub]; decide)

/-! ### Facts about the progress hook -/

theorem hookCall_throttled {st : HookState} {tbl : JobTable} {now : Rat} {d : Event}
    (h : qsub now st.last_update < mkRat 3 10) : hookCall st tbl now d = (st, tbl) := by
  unfold hookCall
  rw [if_pos h]

theorem hookCall_downloading {st : HookState} {tbl : JobTable} {now : Rat} {d : Event}
    (h1 : ¬ qsub now st.last_update < mkRat 3 10) (h2 : d.status = "downloading") :
    alGet ((hookCall st tbl now d).2) st.download_id = some (downloadingEntry d) := by
  unfold hookCall
  rw [if_neg h1, if_pos h2]
  exact alGet_alSet_self _ _ _

theorem hookCall_finished {st : HookState} {tbl : JobTable} {now : Rat} {d : Event}
    (h1 : ¬ qsub now st.last_update < mkRat 3 10) (h2 : d.status = "finished") :
    alGet ((hookCall st tbl now d).2) st.download_id = some processingEntry := by
  unfold hookCall
  have hne : ¬ d.status = "downloading" := by
    rw [h2]
    decide
  rw [if_neg h1, if_neg hne, if_pos h2]
  exact alGet_alSet_self _ _ _

/-- A terminal (completed) job entry for the counterexamples. -/
def cxCompleted : JobEntry :=
  { baseEntry "completed" with progress := some 100, filename := some "x.mp4" }

/-- A mid-download snapshot event. -/
def cxEvent : Event :=
  { status := "downloading", total_bytes := some 100, total_bytes_estimate := none,
    downloaded_bytes := some 50, speed := some 1000, eta := some 2 }

/-- C2 (counterexample): job j1 is recorded completed, yet a downloading
event arriving a full second after the last hook update overwrites the
entry with status downloading — the terminal entry is not left
unchanged. -/
theorem c2_counterexample :
    (alGet ([("j1", cxCompleted)] : JobTable) "j1").map (fun e => e.status) =
      some "completed" ∧
    (alGet ((hookCall ⟨"j1", 0⟩ [("j1", cxCompleted)] 1 cxEvent).2) "j1").map
      (fun e => e.status) = some "downloading" := by
  refine ⟨by decide, by decide⟩

/-- C2 (amended): the hook never reads the recorded entry: a throttled
event leaves any table unchanged, and a non-throttled downloading event
writes a freshly computed entry whose content is independent of the
prior table — terminal or not. -/
theorem c2_hook_ignores_status (st : HookState) (t1 t2 : JobTable) (now : Rat) (d : Event)
    (h1 : ¬ qsub now st.last_update < mkRat 3 10) (h2 : d.status = "downloading") :
    alGet ((hookCall st t1 now d).2) st.download_id =
      alGet ((hookCall st t2 now d).2) st.download_id := by
  rw [hookCall_downloading h1 h2, hookCall_downloading h1 h2]

theorem c2_witness :
    alGet ((hookCall ⟨"j1", 0⟩ [("j1", cxCompleted)] 1 cxEvent).2) "j1" =
      alGet ((hookCall ⟨"j1", 0⟩ [] 1 cxEvent).2) "j1" :=
  c2_hook_ignores_status ⟨"j1", 0⟩ [("j1", cxCompleted)] [] 1 cxEvent
    (by decide) (by decide)

/-- A snapshot whose downloaded byte count exceeds the total. -/
def cxOver : Event :=
  { status := "downloading", total_bytes := some 100, total_bytes_estimate := none,
    downloaded_bytes := some 200, speed := some 0, eta := some 0 }

/-- C3 (counterexample): with 200 of an (estimated) 100 bytes fetched the
recorded percent is 200 — above 100, so no clamping to [0, 100] takes
place. -/
theorem c3_counterexample :
    (alGet ((hookCall ⟨"j1", 0⟩ [] 1 cxOver).2) "j1").map (fun e => e.progress) =
      some (some 200) ∧ ¬ ((200 : Rat) ≤ 100) := by
  refine ⟨by decide, by decide⟩

/-- C3 (amended): the recorded percent of a non-throttled downloading
event is round(downloaded / total * 100, 1) with no clamping — 0 when
the total is unknown or non-positive, and above 100 whenever downloaded
exceeds the total. -/
theorem c3_percent_unclamped (st : HookState) (tbl : JobTable) (now : Rat) (d : Event)
    (h1 : ¬ qsub now st.last_update < mkRat 3 10) (h2 : d.status = "downloading") :
    (alGet ((hookCall st tbl now d).2) st.download_id).map (fun e => e.progress) =
      some (some (pyRound1 (if 0 < eventTotal d
        then eventDownloaded d / eventTotal d * 100 else 0))) := by
  rw [hookCall_downloading h1 h2]
  have hpr : (downloadingEntry d).progress =
      some (pyRound1 (if 0 < eventTotal d
        then eventDownloaded d / eventTotal d * 100 else 0)) := by
    show some (pyRound1 (eventProgress d)) = _
    unfold eventProgress
    rw [qdiv_eq, qmul_eq]
  simp only [Option.map_some', hpr]

theorem c3_witness :
    (alGet ((hookCall ⟨"j1", 0⟩ [] 1 cxOver).2) "j1").map (fun e => e.progress) =
      some (some (pyRound1 (if 0 < eventTotal cxOver
        then eventDownloaded cxOver / eventTotal cxOver * 100 else 0))) :=
  c3_percent_unclamped ⟨"j1", 0⟩ [] 1 cxOver (by decide) (by decide)

/-- The engine finished event. -/
def cxFinished : Event :=
  { status := "finished", total_bytes := none, total_bytes_estimate := none,
    downloaded_bytes := none, speed := none, eta := none }

/-- A non-terminal mid-fetch entry at 50 percent. -/
def cxFetching : JobEntry :=
  { baseEntry "downloading" with progress := some 50, speed := some 0, eta := some 0 }

/-- C6 (counterexample): a finished event arriving 0.1 s after the last
hook update on a non-terminal (downloading, 50 percent) job is dropped
by the throttle: the entry does not transition to processing at 100. -/
theorem c6_counterexample :
    hookCall ⟨"j1", 10⟩ [("j1", cxFetching)] (mkRat 101 10) cxFinished =
      (⟨"j1", 10⟩, [("j1", cxFetching)]) ∧
    cxFetching.status = "downloading" ∧ cxFetching.progress = some 50 := by
  refine ⟨by decide, by decide, by decide⟩

/-- C6 (amended): a finished event transitions the job entry to
processing at 100 percent only when at least 0.3 s have elapsed since
the last hook update; within the throttle window it is dropped. -/
theorem c6_finished_transition (st : HookState) (tbl : JobTable) (now : Rat) (d : Event)
    (h1 : ¬ qsub now st.last_update < mkRat 3 10) (h2 : d.status = "finished") :
    alGet ((hookCall st tbl now d).2) st.download_id = some processingEntry ∧
    processingEntry.status = "processing" ∧ processingEntry.progress = some 100 :=
  ⟨hookCall_finished h1 h2, rfl, rfl⟩

theorem c6_witness :
    alGet ((hookCall ⟨"j1", 0⟩ [] 1 cxFinished).2) "j1" = some processingEntry ∧
    processingEntry.status = "processing" ∧ processingEntry.progress = some 100 :=
  c6_finished_transition ⟨"j1", 0⟩ [] 1 cxFinished (by decide) (by decide)

/-! ### Facts about the selectors -/

/-- An audio-only variant already in the mp3 container. -/
def cmp3 : Fmt :=
  { format_id := "251", ext := "mp3", filesize := some 10, filesize_approx := none,
    vcodec := some "none", acodec := some "mp3", height := none,
    fps := none, tbr := none, abr := some 128 }

/-- C5 (counterexample): the selected variant already has the requested
mp3 container, yet the conversion postprocessor is still attached. -/
theorem c5_counterexample :
    (selectAudio [cmp3] "251" (some "mp3") true).1 = "251" ∧
    (formatLookup [cmp3] "251").map (fun f => f.ext) = some "mp3" ∧
    (selectAudio [cmp3] "251" (some "mp3") true).2 =
      some { key := "FFmpegExtractAudio", preferredcodec := "mp3"
             preferredquality := "128" } := by
  refine ⟨by decide, by decide, by decide⟩

/-- C5 (amended): the conversion postprocessor is attached exactly when
conversion to mp3 was requested and a transcoder is available — the
selected variant container is never compared with the target. -/
theorem c5_pp_iff (formats : List Fmt) (quality : String) (convert_to : Option String)
    (has_ffmpeg : Bool) :
    (selectAudio formats quality convert_to has_ffmpeg).2 ≠ none ↔
      (convert_to = some "mp3" ∧ has_ffmpeg = true) := by
  unfold selectAudio
  by_cases h : convert_to = some "mp3" ∧ has_ffmpeg = true
  · simp [h]
  · simp [h]

/-- C7: with no exact video-capable height match among the raw variants,
the selector raises no error and settles on the non-empty engine
fallback expression for the target height (a non-numeric quality having
defaulted the height to 720). -/
theorem c7_video_fallback (formats : List Fmt) (quality : String)
    (h : ∀ f ∈ formats, ¬ matchesHeight (targetHeight quality) f = true) :
    selectVideoFormatString formats quality =
      "best[height<=" ++ toString (targetHeight quality) ++ "]/best" ∧
    selectVideoFormatString formats quality ≠ "" := by
  have hfilter : formats.filter (matchesHeight (targetHeight quality)) = [] :=
    List.filter_eq_nil_iff.mpr h
  have heq : selectVideoFormatString formats quality =
      "best[height<=" ++ toString (targetHeight quality) ++ "]/best" := by
    simp only [selectVideoFormatString, hfilter, List.map_nil]
  refine ⟨heq, ?_⟩
  rw [heq]
  intro hcontra
  have hlen := congrArg String.length hcontra
  rw [String.length_append, String.length_append] at hlen
  have hl1 : ("best[height<=" : String).length = 13 := by decide
  have hl2 : ("]/best" : String).length = 6 := by decide
  have hl3 : ("" : String).length = 0 := by decide
  omega

theorem c7_witness :
    selectVideoFormatString [cxA] "2160" = "best[height<=2160]/best" ∧
    selectVideoFormatString [cxA] "2160" ≠ "" := by
  have h := c7_video_fallback [cxA] "2160" (by decide)
  refine ⟨?_, h.2⟩
  rw [h.1]
  decide

/-! ### Facts about download finalization -/

/-- C4 (counterexample): the engine reports success but no artifact file
matches the job id: the response is a failure, yet the job table is left
untouched — the still-processing entry never receives an error record. -/
theorem c4_counterexample :
    (finalizeDownload "j1" [("j1", processingEntry)] .ok []).1 =
      [("j1", processingEntry)] ∧
    (finalizeDownload "j1" [("j1", processingEntry)] .ok []).2.success = false ∧
    processingEntry.status = "processing" ∧ processingEntry.message = none := by
  refine ⟨by decide, by decide, by decide, by decide⟩

/-- C4 (amended): the engine-error path writes an error entry with the
raw message and the unexpected-exception path writes an error entry with
no message, each before a failure response; the artifact-missing path
returns a failure response while leaving the table unchanged; a found
artifact yields a completed entry and success. -/
theorem c4_failure_paths (download_id : String) (tbl : JobTable) (msg : String)
    (files : List Artifact) (file : Artifact) (rest : List Artifact) :
    ((finalizeDownload download_id tbl (.downloadError msg) files).1 =
        alSet tbl download_id { baseEntry "error" with message := some msg } ∧
      (finalizeDownload download_id tbl (.downloadError msg) files).2.success = false) ∧
    ((finalizeDownload download_id tbl .unexpectedError files).1 =
        alSet tbl download_id (baseEntry "error") ∧
      (finalizeDownload download_id tbl .unexpectedError files).2.success = false) ∧
    ((finalizeDownload download_id tbl .ok []).1 = tbl ∧
      (finalizeDownload download_id tbl .ok []).2.success = false) ∧
    ((finalizeDownload download_id tbl .ok (file :: rest)).1 =
        alSet tbl download_id (completedEntry download_id file) ∧
      (finalizeDownload download_id tbl .ok (file :: rest)).2.success = true) := by
  refine ⟨⟨?_, ?_⟩, ⟨rfl, rfl⟩, ⟨rfl, rfl⟩, ⟨rfl, rfl⟩⟩
  · simp only [finalizeDownload]
    by_cases hc : strContains msg "403" = true
    · rw [if_pos hc]
    · rw [if_neg hc]
  · simp only [finalizeDownload]
    by_cases hc : strContains msg "403" = true
    · rw [if_pos hc]
    · rw [if_neg hc]

end YTDL
